import Mathlib

/-!
# Verification of `ninja-build-gen`

A shallow embedding of `src/source/ninja-build-gen.ts`, a programmatic
generator for Ninja build files, together with theorems checking the
natural-language specification against it.

Modelling conventions:

* A writable stream is modelled by the ordered list of strings passed to
  `stream.write`; each builder's `write` method becomes a function returning
  that list together with the (unchanged) receiver state, mirroring the fact
  that the TypeScript `write` bodies read fields but never assign to `this`.
* JS `string | Array<string>` arguments become the sum type `StrOrList`.
* JS numbers used as binding names/values are coerced to strings by the
  template literals in the source, so the embedding takes `String` directly.
* The plain-object field `assigns` of an edge is modelled by an
  insertion-ordered association list plus an explicit model of JS property
  enumeration order (`objectEntries`): integer-like keys (canonical base-10
  array indices) enumerate first in ascending numeric order, then the
  remaining keys in insertion order.
* JS truthiness: `if (this.doRestat)` with `doRestat : boolean | undefined`
  is true exactly when the field is `some true`; `x != null` on an optional
  string is `Option.isSome`; `x !== undefined` likewise.
-/

/-- A JS `string | Array<string>` argument. -/
inductive StrOrList where
  | str (s : String)
  | list (l : List String)
deriving DecidableEq, Repr

/-- The list a `StrOrList` denotes: a bare string is wrapped into a
singleton (as the edge constructor and `push` do), a list is taken as-is. -/
def StrOrList.toList : StrOrList → List String
  | .str s => [s]
  | .list l => l

/-- Embedding of `escape` from the source: `s.replace(/[ :$]/g, m => '$' + m)`.
The global single-character-class replace is a left-to-right scan that
prefixes each space, colon or dollar with a dollar sign. -/
def escapeList : List Char → List Char
  | [] => []
  | c :: cs =>
    if c = ' ' ∨ c = ':' ∨ c = '$' then '$' :: c :: escapeList cs
    else c :: escapeList cs

/-- The function `escape(s)` of the source, on `String`. -/
def escape (s : String) : String := ⟨escapeList s.data⟩

/-- Model of `NinjaAssignBuilder`: one name/value binding. -/
structure NinjaAssign where
  name : String
  value : String
deriving DecidableEq, Repr

/-- Method `NinjaAssignBuilder.write`: emits `<name> = <value>\n`; the receiver is
returned unchanged (the method body only calls `stream.write`). -/
def NinjaAssign.write (a : NinjaAssign) : List String × NinjaAssign :=
  ([a.name ++ " = " ++ a.value ++ "\n"], a)

/-- Numeric value of an all-digit key string (base 10). -/
def keyToNat (s : String) : Nat :=
  s.data.foldl (fun n c => n * 10 + (c.toNat - 48)) 0

/-- Whether a string is a canonical JS array index: a non-empty string of
digits with no leading zero (except `"0"` itself) whose value is below
`2^32 - 1`.  Such property keys enumerate before all other string keys,
in ascending numeric order. -/
def isArrayIndex (s : String) : Bool :=
  match s.data with
  | [] => false
  | c :: cs =>
    (c :: cs).all (·.isDigit) && (c != '0' || cs.isEmpty)
      && keyToNat s < 4294967295

/-- Insert an entry into a list sorted by `keyToNat` of the key. -/
def insertByIndex (p : String × String) :
    List (String × String) → List (String × String)
  | [] => [p]
  | q :: qs =>
    if keyToNat p.1 < keyToNat q.1 then p :: q :: qs else q :: insertByIndex p qs

/-- Sort entries by the numeric value of their keys (insertion sort). -/
def sortByIndex (l : List (String × String)) : List (String × String) :=
  l.foldr insertByIndex []

/-- Model of `Object.entries` on a plain object whose properties were
created in the order of the association list: array-index keys first in
ascending numeric order, then the remaining string keys in insertion
order. -/
def objectEntries (l : List (String × String)) : List (String × String) :=
  sortByIndex (l.filter (fun p => isArrayIndex p.1))
    ++ l.filter (fun p => !isArrayIndex p.1)

/-- Model of `this.assigns[name] = value` on a plain object: an existing
key keeps its position and gets the new value, a new key is appended. -/
def insertAssign (l : List (String × String)) (k v : String) :
    List (String × String) :=
  if l.any (fun p => p.1 == k) then
    l.map (fun p => if p.1 == k then (k, v) else p)
  else l ++ [(k, v)]

/-- Model of `NinjaEdgeBuilder`: one build edge. `assigns` keeps the object's
properties in insertion order; enumeration applies `objectEntries`. -/
structure NinjaEdge where
  targets : List String
  assigns : List (String × String) := []
  rule : String := "phony"
  sources : Option (List String) := none
  dependencies : Option (List String) := none
  orderDeps : Option (List String) := none
  poolV : Option String := none
deriving DecidableEq, Repr

/-- The `NinjaEdgeBuilder` constructor: a bare string becomes a singleton
target list, an array is stored as-is. -/
def NinjaEdge.new (targets : StrOrList) : NinjaEdge :=
  { targets := targets.toList }

/-- Method `using(rule)`: overwrite the rule name. -/
def NinjaEdge.usingRule (e : NinjaEdge) (rule : String) : NinjaEdge :=
  { e with rule := rule }

/-- Method `from(sources)`: `this.sources ??= []` then push.  (`from` is a Lean
keyword, hence the name.) -/
def NinjaEdge.fromSources (e : NinjaEdge) (sources : StrOrList) : NinjaEdge :=
  { e with sources := some (e.sources.getD [] ++ sources.toList) }

/-- Method `need(dependencies)`: `this.dependencies ??= []` then push. -/
def NinjaEdge.need (e : NinjaEdge) (dependencies : StrOrList) : NinjaEdge :=
  { e with dependencies := some (e.dependencies.getD [] ++ dependencies.toList) }

/-- Method `after(orderDeps)`: `this.orderDeps ??= []` then push. -/
def NinjaEdge.after (e : NinjaEdge) (orderDeps : StrOrList) : NinjaEdge :=
  { e with orderDeps := some (e.orderDeps.getD [] ++ orderDeps.toList) }

/-- Method `assign(name, value)`: property write on the `assigns` object. -/
def NinjaEdge.assign (e : NinjaEdge) (name value : String) : NinjaEdge :=
  { e with assigns := insertAssign e.assigns name value }

/-- Method `pool(pool)`: set the pool. -/
def NinjaEdge.pool (e : NinjaEdge) (pool : String) : NinjaEdge :=
  { e with poolV := some pool }

/-- Method `NinjaEdgeBuilder.write`: one list element per `stream.write` call, in
source order; the receiver is returned unchanged (the body never assigns
to `this`). -/
def NinjaEdge.write (e : NinjaEdge) : List String × NinjaEdge :=
  (["build " ++ String.intercalate " " e.targets ++ ": " ++ e.rule]
    ++ (match e.sources with
        | none => []
        | some s => [" " ++ String.intercalate " " s])
    ++ (match e.dependencies with
        | none => []
        | some d => [" | " ++ String.intercalate " " d])
    ++ (match e.orderDeps with
        | none => []
        | some o => [" || " ++ String.intercalate " " o])
    ++ (objectEntries e.assigns).map (fun p => "\n  " ++ p.1 ++ " = " ++ p.2)
    ++ ["\n"]
    ++ (match e.poolV with
        | none => []
        | some p => ["  pool = " ++ p ++ "\n"]), e)

/-- Model of `NinjaRuleBuilder`: one named rule. -/
structure NinjaRule where
  name : String
  command : String := ""
  desc : Option String := none
  dependencyFile : Option String := none
  doRestat : Option Bool := none
  isGenerator : Option Bool := none
  poolV : Option String := none
deriving DecidableEq, Repr

/-- The `NinjaRuleBuilder` constructor. -/
def NinjaRule.new (name : String) : NinjaRule := { name := name }

/-- Method `run(command)`: replace the stored command. -/
def NinjaRule.run (r : NinjaRule) (command : String) : NinjaRule :=
  { r with command := command }

/-- Method `description(desc)`. -/
def NinjaRule.description (r : NinjaRule) (desc : String) : NinjaRule :=
  { r with desc := some desc }

/-- Method `depfile(file)`. -/
def NinjaRule.depfile (r : NinjaRule) (file : String) : NinjaRule :=
  { r with dependencyFile := some file }

/-- Method `restat(doRestat)`. -/
def NinjaRule.restat (r : NinjaRule) (doRestat : Bool) : NinjaRule :=
  { r with doRestat := some doRestat }

/-- Method `generator(isGenerator)`. -/
def NinjaRule.generator (r : NinjaRule) (isGenerator : Bool) : NinjaRule :=
  { r with isGenerator := some isGenerator }

/-- Method `pool(pool)`. -/
def NinjaRule.pool (r : NinjaRule) (pool : String) : NinjaRule :=
  { r with poolV := some pool }

/-- Method `NinjaRuleBuilder.write`: one list element per `stream.write` call.
`if (this.doRestat)` is JS-truthy exactly when the field is `some true`;
`!= null` on optional strings is `isSome`. -/
def NinjaRule.write (r : NinjaRule) : List String × NinjaRule :=
  (["rule " ++ r.name ++ "\n  command = " ++ r.command ++ "\n"]
    ++ (match r.desc with
        | none => []
        | some d => ["  description = " ++ d ++ "\n"])
    ++ (if r.doRestat = some true then ["  restat = 1\n"] else [])
    ++ (if r.isGenerator = some true then ["  generator = 1\n"] else [])
    ++ (match r.poolV with
        | none => []
        | some p => ["  pool = " ++ p ++ "\n"])
    ++ (match r.dependencyFile with
        | none => []
        | some f => ["  depfile = " ++ f ++ "\n", "  deps = gcc\n"]), r)

/-- Model of `NinjaBuilder`: the top-level assembly. -/
structure NinjaBuilder where
  version : Option String := none
  buildDir : Option String := none
  edges : List NinjaEdge := []
  rules : List NinjaRule := []
  variablesV : List NinjaAssign := []
  edgeCountV : Nat := 0
  ruleCountV : Nat := 0
  headerValue : Option String := none
  defaultRule : Option String := none
deriving DecidableEq, Repr

/-- The `NinjaBuilder` constructor (also the default-export factory). -/
def NinjaBuilder.new (version buildDir : Option String) : NinjaBuilder :=
  { version := version, buildDir := buildDir }

/-- Method `header(value)`. -/
def NinjaBuilder.header (b : NinjaBuilder) (value : String) : NinjaBuilder :=
  { b with headerValue := some value }

/-- Method `byDefault(name)`. -/
def NinjaBuilder.byDefault (b : NinjaBuilder) (name : String) : NinjaBuilder :=
  { b with defaultRule := some name }

/-- Method `assign(name, value)`: register a new `NinjaAssignBuilder`. -/
def NinjaBuilder.assign (b : NinjaBuilder) (name value : String) : NinjaBuilder :=
  { b with variablesV := b.variablesV ++ [⟨name, value⟩] }

/-- Method `rule(name)`: register a fresh rule and bump the counter.  The source
returns the new builder for fluent configuration; since the registered
reference aliases the returned one, registering an already-configured
`NinjaRule` models any sequence of fluent calls made before serialization. -/
def NinjaBuilder.ruleAdd (b : NinjaBuilder) (r : NinjaRule) : NinjaBuilder :=
  { b with rules := b.rules ++ [r], ruleCountV := b.ruleCountV + 1 }

/-- Method `edge(targets)`: register an edge and bump the counter (same aliasing
remark as for `ruleAdd`). -/
def NinjaBuilder.edgeAdd (b : NinjaBuilder) (e : NinjaEdge) : NinjaBuilder :=
  { b with edges := b.edges ++ [e], edgeCountV := b.edgeCountV + 1 }

/-- The `for (const rule of this.rules) rule.write(stream)` loop: write each
element in order, collecting outputs and the post-write states. -/
def writeRules : List NinjaRule → List String × List NinjaRule
  | [] => ([], [])
  | r :: rs =>
    let (o, r') := r.write
    let (os, rs') := writeRules rs
    (o ++ os, r' :: rs')

/-- The loop over edges. -/
def writeEdges : List NinjaEdge → List String × List NinjaEdge
  | [] => ([], [])
  | e :: es =>
    let (o, e') := e.write
    let (os, es') := writeEdges es
    (o ++ os, e' :: es')

/-- The loop over top-level bindings. -/
def writeVariables : List NinjaAssign → List String × List NinjaAssign
  | [] => ([], [])
  | a :: as_ =>
    let (o, a') := a.write
    let (os, as') := writeVariables as_
    (o ++ os, a' :: as')

/-- Method `NinjaBuilder.saveToStream`: the serialization entry point, in source
order — header, version, builddir, rules, edges, bindings, default.  The
returned builder collects the post-write child states (the source mutates
nothing here, it only reads fields). -/
def NinjaBuilder.saveToStream (b : NinjaBuilder) : List String × NinjaBuilder :=
  let (ruleOut, rules') := writeRules b.rules
  let (edgeOut, edges') := writeEdges b.edges
  let (varOut, vars') := writeVariables b.variablesV
  ((match b.headerValue with
    | none => []
    | some h => [h ++ "\n\n"])
    ++ (match b.version with
        | none => []
        | some v => ["ninja_required_version = " ++ v ++ "\n"])
    ++ (match b.buildDir with
        | none => []
        | some d => ["builddir=" ++ d ++ "\n"])
    ++ ruleOut ++ edgeOut ++ varOut
    ++ (match b.defaultRule with
        | none => []
        | some d => ["default " ++ d ++ "\n"]),
   { b with rules := rules', edges := edges', variablesV := vars' })

/-- The text a sequence of `stream.write` calls leaves on the stream: the
concatenation of the written chunks, in order. -/
def streamText : List String → String
  | [] => ""
  | s :: l => s ++ streamText l

/-- Rendered text of a rule. -/
def renderRule (r : NinjaRule) : String := streamText r.write.1

/-- Rendered text of an edge. -/
def renderEdge (e : NinjaEdge) : String := streamText e.write.1

/-- Rendered text of a binding. -/
def renderAssign (a : NinjaAssign) : String := streamText a.write.1

/-- Rendered text of the whole assembly. -/
def renderBuilder (b : NinjaBuilder) : String := streamText b.saveToStream.1

/-- One registration call on the assembly.  `rule`/`edge` carry the final
configured state of the child builder: the source registers a reference and
returns it for fluent configuration, so by serialization time the registered
child holds whatever state the fluent calls produced. -/
inductive BuilderOp where
  | opRule (r : NinjaRule)
  | opEdge (e : NinjaEdge)
  | opAssign (name value : String)
deriving DecidableEq, Repr

/-- Apply one registration call to the assembly. -/
def applyOp (b : NinjaBuilder) : BuilderOp → NinjaBuilder
  | .opRule r => b.ruleAdd r
  | .opEdge e => b.edgeAdd e
  | .opAssign n v => b.assign n v

/-- Apply a sequence of interleaved registration calls, left to right. -/
def applyOps (b : NinjaBuilder) (ops : List BuilderOp) : NinjaBuilder :=
  ops.foldl applyOp b

/-- The rules registered by a call sequence, in call order. -/
def opRules (ops : List BuilderOp) : List NinjaRule :=
  ops.filterMap fun
    | .opRule r => some r
    | _ => none

/-- The edges registered by a call sequence, in call order. -/
def opEdges (ops : List BuilderOp) : List NinjaEdge :=
  ops.filterMap fun
    | .opEdge e => some e
    | _ => none

/-- The top-level bindings registered by a call sequence, in call order. -/
def opAssigns (ops : List BuilderOp) : List NinjaAssign :=
  ops.filterMap fun
    | .opAssign n v => some ⟨n, v⟩
    | _ => none

/-! ## Helper lemmas -/

theorem streamText_append (l₁ l₂ : List String) :
    streamText (l₁ ++ l₂) = streamText l₁ ++ streamText l₂ := by
  induction l₁ with
  | nil => simp [streamText]
  | cons s l ih => simp [streamText, ih, String.append_assoc]

/-! ## Claim theorems -/

/-- C4: `escape` replaces each space, colon, or dollar sign by itself
prefixed with exactly one dollar sign and passes every other character
through unchanged; in particular it maps `foo:bar$glo fiz.js` to
`foo$:bar$$glo$ fiz.js`. -/
theorem escape_prefixes_each_special_char :
    (∀ s : String, (escape s).data =
      s.data.flatMap (fun c =>
        if c = ' ' ∨ c = ':' ∨ c = '$' then ['$', c] else [c]))
    ∧ escape "foo:bar$glo fiz.js" = "foo$:bar$$glo$ fiz.js" := by
  constructor
  · intro s
    show escapeList s.data = _
    induction s.data with
    | nil => rfl
    | cons c cs ih =>
      by_cases h : c = ' ' ∨ c = ':' ∨ c = '$' <;>
        simp [escapeList, h, ih]
  · decide

/-- C10: the edge constructor wraps only a bare string into a singleton;
an empty target array is stored as-is and such an edge renders
`build : phony` followed by a newline. -/
theorem empty_target_edge_renders :
    (∀ l : List String, (NinjaEdge.new (.list l)).targets = l)
    ∧ (∀ s : String, (NinjaEdge.new (.str s)).targets = [s])
    ∧ renderEdge (NinjaEdge.new (.list [])) = "build : phony\n" := by
  exact ⟨fun l => rfl, fun s => rfl, by decide⟩

/-- C9: `from([])` as the only accumulator call on a fresh edge marks the
sources accumulator present-but-empty, so the edge renders with an extra
trailing space before the newline, differing from an edge on which `from`
was never called. -/
theorem from_empty_list_marks_sources_present :
    ∀ ts : StrOrList,
      ((NinjaEdge.new ts).fromSources (.list [])).sources = some []
      ∧ renderEdge ((NinjaEdge.new ts).fromSources (.list [])) =
          "build " ++ String.intercalate " " ts.toList ++ ": phony \n"
      ∧ renderEdge (NinjaEdge.new ts) =
          "build " ++ String.intercalate " " ts.toList ++ ": phony\n"
      ∧ renderEdge ((NinjaEdge.new ts).fromSources (.list [])) ≠
          renderEdge (NinjaEdge.new ts) := by
  intro ts
  have h₁ : renderEdge ((NinjaEdge.new ts).fromSources (.list [])) =
      "build " ++ String.intercalate " " ts.toList ++ ": phony \n" := by
    show streamText
      ["build " ++ String.intercalate " " ts.toList ++ ": " ++ "phony",
       " " ++ "", "\n"] = _
    simp only [streamText, String.append_empty, String.append_assoc]
    congr 1
  have h₂ : renderEdge (NinjaEdge.new ts) =
      "build " ++ String.intercalate " " ts.toList ++ ": phony\n" := by
    show streamText
      ["build " ++ String.intercalate " " ts.toList ++ ": " ++ "phony",
       "\n"] = _
    simp only [streamText, String.append_empty, String.append_assoc]
    congr 1
  refine ⟨rfl, h₁, h₂, ?_⟩
  rw [h₁, h₂]
  intro h
  have hlen := congrArg String.length h
  have e₁ : (": phony \n" : String).length = 9 := by decide
  have e₂ : (": phony\n" : String).length = 8 := by decide
  simp only [String.length_append, e₁, e₂] at hlen
  omega

/-- C5: `from`, `need` and `after` each append to their own accumulator,
preserving call order and concatenating across invocations rather than
replacing; in particular `from('debug')` then `from(['release','lint'])`
renders `build dist: phony debug release lint\n`. -/
theorem edge_accumulators_append_across_calls :
    (∀ (e : NinjaEdge) (xs ys : StrOrList),
      (e.fromSources xs).sources = some (e.sources.getD [] ++ xs.toList)
      ∧ ((e.fromSources xs).fromSources ys).sources =
          some (e.sources.getD [] ++ (xs.toList ++ ys.toList)))
    ∧ (∀ (e : NinjaEdge) (xs ys : StrOrList),
      (e.need xs).dependencies = some (e.dependencies.getD [] ++ xs.toList)
      ∧ ((e.need xs).need ys).dependencies =
          some (e.dependencies.getD [] ++ (xs.toList ++ ys.toList)))
    ∧ (∀ (e : NinjaEdge) (xs ys : StrOrList),
      (e.after xs).orderDeps = some (e.orderDeps.getD [] ++ xs.toList)
      ∧ ((e.after xs).after ys).orderDeps =
          some (e.orderDeps.getD [] ++ (xs.toList ++ ys.toList)))
    ∧ renderEdge (((NinjaEdge.new (.str "dist")).fromSources
          (.str "debug")).fromSources (.list ["release", "lint"])) =
        "build dist: phony debug release lint\n" := by
  refine ⟨?_, ?_, ?_, by decide⟩ <;>
    · intro e xs ys
      exact ⟨rfl, by
        simp [NinjaEdge.fromSources, NinjaEdge.need, NinjaEdge.after,
          List.append_assoc]⟩

/-- C2: a rule renders `rule <name>`, then `  command = <command>` (even
when the command is empty), then — in exactly this order, each only when
set/truthy — description, `restat = 1`, `generator = 1`, pool, and finally
depfile followed unconditionally by `  deps = gcc`. -/
theorem rule_write_renders_fields_in_order :
    ∀ r : NinjaRule,
      renderRule r =
        "rule " ++ r.name ++ "\n  command = " ++ r.command ++ "\n"
        ++ (match r.desc with
            | none => ""
            | some d => "  description = " ++ d ++ "\n")
        ++ (if r.doRestat = some true then "  restat = 1\n" else "")
        ++ (if r.isGenerator = some true then "  generator = 1\n" else "")
        ++ (match r.poolV with
            | none => ""
            | some p => "  pool = " ++ p ++ "\n")
        ++ (match r.dependencyFile with
            | none => ""
            | some f => "  depfile = " ++ f ++ "\n" ++ "  deps = gcc\n") := by
  intro r
  show streamText (_ ++ _ ++ _ ++ _ ++ _ ++ _) = _
  simp only [streamText_append]
  have hone : ∀ s : String, streamText [s] = s := by
    intro s; simp [streamText, String.append_empty]
  have hite : ∀ (P : Prop) (inst : Decidable P) (s : String),
      streamText (if P then [s] else []) = (if P then s else "") := by
    intro P inst s; split <;> simp [streamText, String.append_empty]
  have hdesc : streamText
      (match r.desc with
       | none => []
       | some d => ["  description = " ++ d ++ "\n"]) =
      (match r.desc with
       | none => ""
       | some d => "  description = " ++ d ++ "\n") := by
    cases r.desc <;> simp [streamText, String.append_empty]
  have hpool : streamText
      (match r.poolV with
       | none => []
       | some p => ["  pool = " ++ p ++ "\n"]) =
      (match r.poolV with
       | none => ""
       | some p => "  pool = " ++ p ++ "\n") := by
    cases r.poolV <;> simp [streamText, String.append_empty]
  have hdep : streamText
      (match r.dependencyFile with
       | none => []
       | some f => ["  depfile = " ++ f ++ "\n", "  deps = gcc\n"]) =
      (match r.dependencyFile with
       | none => ""
       | some f => "  depfile = " ++ f ++ "\n" ++ "  deps = gcc\n") := by
    cases r.dependencyFile <;> simp [streamText, String.append_empty]
  rw [hone, hite, hite, hdesc, hpool, hdep]

/-- C3 (counterexample): an edge whose sources accumulator is present but
empty — `from([])` — renders `build a: phony \n` with a trailing space,
not the `build a: phony\n` the non-empty-only clause rule of the claim
predicts, so the claim's "if the sources accumulator is non-empty"
condition does not match the code, which tests presence instead. -/
theorem edge_write_space_for_present_empty_sources :
    renderEdge ((NinjaEdge.new (.list ["a"])).fromSources (.list [])) =
      "build a: phony \n"
    ∧ ("build a: phony \n" : String) ≠ "build a: phony\n" := by
  exact ⟨by decide, by decide⟩

/-- C3 (amended): an edge renders `build <targets>: <rule>` (rule defaults
to `phony`), then — whenever the respective accumulator is present, i.e.
initialized by at least one call, even with an empty list — a space plus
the joined sources, ` | ` plus the joined dependencies, ` || ` plus the
joined order-only deps; then one `\n  <key> = <value>` line per enumerated
mapping entry; then a newline; then `  pool = <pool>` if a pool is set. -/
theorem edge_write_renders_clauses_when_present :
    ∀ e : NinjaEdge,
      renderEdge e =
        "build " ++ String.intercalate " " e.targets ++ ": " ++ e.rule
        ++ (match e.sources with
            | none => ""
            | some s => " " ++ String.intercalate " " s)
        ++ (match e.dependencies with
            | none => ""
            | some d => " | " ++ String.intercalate " " d)
        ++ (match e.orderDeps with
            | none => ""
            | some o => " || " ++ String.intercalate " " o)
        ++ streamText ((objectEntries e.assigns).map
            (fun p => "\n  " ++ p.1 ++ " = " ++ p.2))
        ++ "\n"
        ++ (match e.poolV with
            | none => ""
            | some p => "  pool = " ++ p ++ "\n") := by
  intro e
  show streamText (_ ++ _ ++ _ ++ _ ++ _ ++ _ ++ _) = _
  simp only [streamText_append]
  have hone : ∀ s : String, streamText [s] = s := by
    intro s; simp [streamText, String.append_empty]
  have hsrc : streamText
      (match e.sources with
       | none => []
       | some s => [" " ++ String.intercalate " " s]) =
      (match e.sources with
       | none => ""
       | some s => " " ++ String.intercalate " " s) := by
    cases e.sources <;> simp [streamText, String.append_empty]
  have hdeps : streamText
      (match e.dependencies with
       | none => []
       | some d => [" | " ++ String.intercalate " " d]) =
      (match e.dependencies with
       | none => ""
       | some d => " | " ++ String.intercalate " " d) := by
    cases e.dependencies <;> simp [streamText, String.append_empty]
  have hord : streamText
      (match e.orderDeps with
       | none => []
       | some o => [" || " ++ String.intercalate " " o]) =
      (match e.orderDeps with
       | none => ""
       | some o => " || " ++ String.intercalate " " o) := by
    cases e.orderDeps <;> simp [streamText, String.append_empty]
  have hpool : streamText
      (match e.poolV with
       | none => []
       | some p => ["  pool = " ++ p ++ "\n"]) =
      (match e.poolV with
       | none => ""
       | some p => "  pool = " ++ p ++ "\n") := by
    cases e.poolV <;> simp [streamText, String.append_empty]
  rw [hone, hsrc, hdeps, hord, hone, hpool]

/-- C7 (counterexample): there is no rule for which `restat(false)` renders
differently from leaving restat unset — the render guard `if (this.doRestat)`
is falsy for both `false` and `undefined`, so the claimed observable
distinction does not exist. -/
theorem no_rule_distinguishes_restat_false_from_unset :
    ¬ ∃ r : NinjaRule,
      renderRule (r.restat false) ≠ renderRule { r with doRestat := none } := by
  rintro ⟨r, h⟩
  apply h
  simp [renderRule, NinjaRule.write, NinjaRule.restat]

/-- C7 (amended): the unset-vs-false distinction on `restat` and
`generator` is NOT observable in rendered output — setting either to
`false` renders identically to never calling the setter; only setting it
to `true` changes the output (e.g. for the rule `coffee`). -/
theorem restat_generator_false_equals_unset :
    (∀ r : NinjaRule,
      renderRule (r.restat false) = renderRule { r with doRestat := none })
    ∧ (∀ r : NinjaRule,
      renderRule (r.generator false) = renderRule { r with isGenerator := none })
    ∧ renderRule ((NinjaRule.new "coffee").restat true) ≠
        renderRule (NinjaRule.new "coffee") := by
  refine ⟨?_, ?_, by decide⟩ <;>
    · intro r
      simp [renderRule, NinjaRule.write, NinjaRule.restat, NinjaRule.generator]

theorem writeRules_state (rs : List NinjaRule) : (writeRules rs).2 = rs := by
  induction rs with
  | nil => rfl
  | cons r rs ih => simp [writeRules, NinjaRule.write, ih]

theorem writeEdges_state (es : List NinjaEdge) : (writeEdges es).2 = es := by
  induction es with
  | nil => rfl
  | cons e es ih => simp [writeEdges, NinjaEdge.write, ih]

theorem writeVariables_state (vs : List NinjaAssign) :
    (writeVariables vs).2 = vs := by
  induction vs with
  | nil => rfl
  | cons v vs ih => simp [writeVariables, NinjaAssign.write, ih]

/-- C8: serialization consumes no state — `saveToStream` leaves the
assembly and every child builder unchanged, so calling it twice with no
intervening mutation writes character-identical output both times. -/
theorem saveToStream_idempotent_state_preserved :
    ∀ b : NinjaBuilder,
      b.saveToStream.2 = b
      ∧ streamText (b.saveToStream.2).saveToStream.1 =
          streamText b.saveToStream.1 := by
  intro b
  have h : b.saveToStream.2 =
      { b with rules := (writeRules b.rules).2,
               edges := (writeEdges b.edges).2,
               variablesV := (writeVariables b.variablesV).2 } := rfl
  rw [writeRules_state, writeEdges_state, writeVariables_state] at h
  have hb : b.saveToStream.2 = b := h
  exact ⟨hb, by rw [hb]⟩

theorem applyOps_rules (ops : List BuilderOp) :
    ∀ b : NinjaBuilder, (applyOps b ops).rules = b.rules ++ opRules ops := by
  induction ops with
  | nil => intro b; simp [applyOps, opRules]
  | cons op ops ih =>
    intro b
    have hstep : applyOps b (op :: ops) = applyOps (applyOp b op) ops := rfl
    rw [hstep, ih]
    cases op <;>
      simp [applyOp, opRules, NinjaBuilder.ruleAdd, NinjaBuilder.edgeAdd,
        NinjaBuilder.assign, List.filterMap_cons]

theorem applyOps_edges (ops : List BuilderOp) :
    ∀ b : NinjaBuilder, (applyOps b ops).edges = b.edges ++ opEdges ops := by
  induction ops with
  | nil => intro b; simp [applyOps, opEdges]
  | cons op ops ih =>
    intro b
    have hstep : applyOps b (op :: ops) = applyOps (applyOp b op) ops := rfl
    rw [hstep, ih]
    cases op <;>
      simp [applyOp, opEdges, NinjaBuilder.ruleAdd, NinjaBuilder.edgeAdd,
        NinjaBuilder.assign, List.filterMap_cons]

theorem applyOps_variables (ops : List BuilderOp) :
    ∀ b : NinjaBuilder,
      (applyOps b ops).variablesV = b.variablesV ++ opAssigns ops := by
  induction ops with
  | nil => intro b; simp [applyOps, opAssigns]
  | cons op ops ih =>
    intro b
    have hstep : applyOps b (op :: ops) = applyOps (applyOp b op) ops := rfl
    rw [hstep, ih]
    cases op <;>
      simp [applyOp, opAssigns, NinjaBuilder.ruleAdd, NinjaBuilder.edgeAdd,
        NinjaBuilder.assign, List.filterMap_cons]

theorem applyOps_preamble (ops : List BuilderOp) :
    ∀ b : NinjaBuilder,
      (applyOps b ops).headerValue = b.headerValue
      ∧ (applyOps b ops).version = b.version
      ∧ (applyOps b ops).buildDir = b.buildDir
      ∧ (applyOps b ops).defaultRule = b.defaultRule := by
  induction ops with
  | nil => intro b; exact ⟨rfl, rfl, rfl, rfl⟩
  | cons op ops ih =>
    intro b
    have hstep : applyOps b (op :: ops) = applyOps (applyOp b op) ops := rfl
    rw [hstep]
    have h := ih (applyOp b op)
    cases op <;>
      simpa [applyOp, NinjaBuilder.ruleAdd, NinjaBuilder.edgeAdd,
        NinjaBuilder.assign] using h

theorem streamText_writeRules (rs : List NinjaRule) :
    streamText (writeRules rs).1 = streamText (rs.map renderRule) := by
  induction rs with
  | nil => rfl
  | cons r rs ih =>
    simp [writeRules, streamText, streamText_append, renderRule, ih,
      String.append_assoc]

theorem streamText_writeEdges (es : List NinjaEdge) :
    streamText (writeEdges es).1 = streamText (es.map renderEdge) := by
  induction es with
  | nil => rfl
  | cons e es ih =>
    simp [writeEdges, streamText, streamText_append, renderEdge, ih,
      String.append_assoc]

theorem streamText_writeVariables (vs : List NinjaAssign) :
    streamText (writeVariables vs).1 = streamText (vs.map renderAssign) := by
  induction vs with
  | nil => rfl
  | cons v vs ih =>
    simp [writeVariables, streamText, streamText_append, renderAssign, ih,
      String.append_assoc]

/-- C1: `saveToStream` writes, in fixed order: header plus two newlines if
set; `ninja_required_version = <v>` if set; `builddir=<dir>` with no space
around `=` if set; every registered rule, edge, and top-level binding,
each in registration order; then `default <name>` if set — regardless of
how the registration calls were interleaved. -/
theorem saveToStream_fixed_order :
    ∀ (b : NinjaBuilder) (ops : List BuilderOp),
      renderBuilder (applyOps b ops) =
        (match b.headerValue with
         | none => ""
         | some h => h ++ "\n\n")
        ++ (match b.version with
            | none => ""
            | some v => "ninja_required_version = " ++ v ++ "\n")
        ++ (match b.buildDir with
            | none => ""
            | some d => "builddir=" ++ d ++ "\n")
        ++ streamText ((b.rules ++ opRules ops).map renderRule)
        ++ streamText ((b.edges ++ opEdges ops).map renderEdge)
        ++ streamText ((b.variablesV ++ opAssigns ops).map renderAssign)
        ++ (match b.defaultRule with
            | none => ""
            | some d => "default " ++ d ++ "\n") := by
  intro b ops
  obtain ⟨hh, hv, hd, hdf⟩ := applyOps_preamble ops b
  have hs : renderBuilder (applyOps b ops) =
      streamText
        (match (applyOps b ops).headerValue with
         | none => []
         | some h => [h ++ "\n\n"])
      ++ streamText
        (match (applyOps b ops).version with
         | none => []
         | some v => ["ninja_required_version = " ++ v ++ "\n"])
      ++ streamText
        (match (applyOps b ops).buildDir with
         | none => []
         | some d => ["builddir=" ++ d ++ "\n"])
      ++ streamText (writeRules (applyOps b ops).rules).1
      ++ streamText (writeEdges (applyOps b ops).edges).1
      ++ streamText (writeVariables (applyOps b ops).variablesV).1
      ++ streamText
        (match (applyOps b ops).defaultRule with
         | none => []
         | some d => ["default " ++ d ++ "\n"]) := by
    show streamText (_ ++ _ ++ _ ++ _ ++ _ ++ _ ++ _) = _
    simp only [streamText_append]
  rw [hs, hh, hv, hd, hdf, applyOps_rules, applyOps_edges, applyOps_variables,
    streamText_writeRules, streamText_writeEdges, streamText_writeVariables]
  have h₁ : streamText
      (match b.headerValue with
       | none => []
       | some h => [h ++ "\n\n"]) =
      (match b.headerValue with
       | none => ""
       | some h => h ++ "\n\n") := by
    cases b.headerValue <;> simp [streamText, String.append_empty]
  have h₂ : streamText
      (match b.version with
       | none => []
       | some v => ["ninja_required_version = " ++ v ++ "\n"]) =
      (match b.version with
       | none => ""
       | some v => "ninja_required_version = " ++ v ++ "\n") := by
    cases b.version <;> simp [streamText, String.append_empty]
  have h₃ : streamText
      (match b.buildDir with
       | none => []
       | some d => ["builddir=" ++ d ++ "\n"]) =
      (match b.buildDir with
       | none => ""
       | some d => "builddir=" ++ d ++ "\n") := by
    cases b.buildDir <;> simp [streamText, String.append_empty]
  have h₄ : streamText
      (match b.defaultRule with
       | none => []
       | some d => ["default " ++ d ++ "\n"]) =
      (match b.defaultRule with
       | none => ""
       | some d => "default " ++ d ++ "\n") := by
    cases b.defaultRule <;> simp [streamText, String.append_empty]
  rw [h₁, h₂, h₃, h₄]

theorem lookup_insertAssign (l : List (String × String)) (k v : String) :
    (insertAssign l k v).lookup k = some v := by
  unfold insertAssign
  by_cases h : l.any (fun p => p.1 == k) = true
  · rw [if_pos h]
    induction l with
    | nil => simp at h
    | cons p l ih =>
      rw [List.map_cons]
      by_cases hpk : p.1 = k
      · have hhead : (if (p.1 == k) = true then (k, v) else p) = (k, v) := by
          simp [hpk]
        rw [hhead]
        exact List.lookup_cons_self
      · have hhead : (if (p.1 == k) = true then (k, v) else p) = p := by
          simp [hpk]
        rw [hhead]
        have h' : l.any (fun p => p.1 == k) = true := by
          simp only [List.any_cons, Bool.or_eq_true, beq_iff_eq] at h
          tauto
        have hk : (k == p.1) = false := by
          simp only [beq_eq_false_iff_ne, ne_eq]
          exact fun he => hpk he.symm
        rw [show p = (p.1, p.2) from rfl, List.lookup_cons, hk]
        exact ih h'
  · rw [if_neg h]
    induction l with
    | nil => simp [List.lookup]
    | cons p l ih =>
      simp only [List.any_cons, Bool.or_eq_true, not_or, beq_iff_eq] at h
      obtain ⟨hpk, h'⟩ := h
      have hk : (k == p.1) = false := by
        simp only [beq_eq_false_iff_ne, ne_eq]
        exact fun he => hpk he.symm
      have h'' : ¬l.any (fun p => p.1 == k) = true := by
        simpa [List.any_eq_true, beq_iff_eq] using h'
      rw [List.cons_append, show p = (p.1, p.2) from rfl, List.lookup_cons, hk]
      exact ih h''

theorem insertAssign_map_fst (l : List (String × String)) (k v : String) :
    (insertAssign l k v).map Prod.fst =
      (if k ∈ l.map Prod.fst then l.map Prod.fst else l.map Prod.fst ++ [k]) := by
  unfold insertAssign
  by_cases h : l.any (fun p => p.1 == k) = true
  · rw [if_pos h]
    have hmem : k ∈ l.map Prod.fst := by
      simp only [List.any_eq_true, beq_iff_eq] at h
      obtain ⟨p, hp, hpk⟩ := h
      exact hpk ▸ List.mem_map_of_mem Prod.fst hp
    rw [if_pos hmem, List.map_map]
    apply List.map_congr_left
    intro p hp
    by_cases hpk : p.1 = k
    · simp [hpk]
    · simp [hpk]
  · rw [if_neg h]
    have hmem : k ∉ l.map Prod.fst := by
      simp only [List.any_eq_true, beq_iff_eq] at h
      simp only [List.mem_map]
      rintro ⟨p, hp, hpk⟩
      exact h ⟨p, hp, hpk⟩
    rw [if_neg hmem, List.map_append]
    rfl

theorem mem_insertAssign {l : List (String × String)} {k v : String}
    {p : String × String} (hp : p ∈ insertAssign l k v) :
    p ∈ l ∨ p = (k, v) := by
  unfold insertAssign at hp
  by_cases h : l.any (fun q => q.1 == k) = true
  · rw [if_pos h] at hp
    obtain ⟨q, hq, hfq⟩ := List.mem_map.mp hp
    by_cases hqk : q.1 = k
    · right
      rw [← hfq]
      simp [hqk]
    · left
      have : (if (q.1 == k) = true then (k, v) else q) = q := by simp [hqk]
      rw [← hfq, this]
      exact hq
  · rw [if_neg h] at hp
    rcases List.mem_append.mp hp with h1 | h1
    · exact Or.inl h1
    · right
      simpa using h1

theorem objectEntries_of_no_index (l : List (String × String))
    (h : ∀ p ∈ l, isArrayIndex p.1 = false) : objectEntries l = l := by
  unfold objectEntries
  have h1 : l.filter (fun p => isArrayIndex p.1) = [] := by
    rw [List.filter_eq_nil_iff]
    intro p hp
    simp [h p hp]
  have h2 : l.filter (fun p => !isArrayIndex p.1) = l := by
    rw [List.filter_eq_self]
    intro p hp
    simp [h p hp]
  rw [h1, h2]
  rfl

/-- C6 (counterexample): edge overrides do NOT always render in
first-insertion order of the keys — the `assigns` object enumerates
integer-like property keys in ascending numeric order first, so inserting
key `2` then key `1` renders `1` before `2`. -/
theorem edge_assign_numeric_keys_break_insertion_order :
    renderEdge (((NinjaEdge.new (.str "t")).assign "2" "a").assign "1" "b") =
      "build t: phony\n  1 = b\n  2 = a\n"
    ∧ ("build t: phony\n  1 = b\n  2 = a\n" : String) ≠
        "build t: phony\n  2 = a\n  1 = b\n" :=
  ⟨by decide, by decide⟩

/-- C6 (amended): `assign` keeps keys unique, the last write for a key
wins, and a key already present keeps its original position; rendering
iterates the overrides in JS object property order — integer-like keys
first in ascending numeric order, then the rest in first-insertion order —
which coincides with first-insertion order exactly when no key is an
integer-like string (such as the decimal form of a JS number). -/
theorem edge_assign_object_property_semantics
    (l : List (String × String)) (k v : String)
    (h₁ : (l.map Prod.fst).Nodup)
    (h₂ : ((k :: l.map Prod.fst).all fun s => !isArrayIndex s) = true) :
    ((insertAssign l k v).map Prod.fst).Nodup
    ∧ (insertAssign l k v).map Prod.fst =
        (if k ∈ l.map Prod.fst then l.map Prod.fst else l.map Prod.fst ++ [k])
    ∧ (insertAssign l k v).lookup k = some v
    ∧ objectEntries (insertAssign l k v) = insertAssign l k v := by
  have hmf := insertAssign_map_fst l k v
  refine ⟨?_, hmf, lookup_insertAssign l k v, ?_⟩
  · rw [hmf]
    split
    · exact h₁
    · rename_i hmem
      simp [List.nodup_append, h₁, hmem]
  · apply objectEntries_of_no_index
    intro p hp
    simp only [List.all_cons, Bool.and_eq_true, List.all_eq_true] at h₂
    obtain ⟨hk, hall⟩ := h₂
    rcases mem_insertAssign hp with h | h
    · have := hall p.1 (List.mem_map_of_mem Prod.fst h)
      simpa using this
    · rw [h]
      simpa using hk

/-- C6 (witness): the amended property instantiated at the overrides list
`[("alpha", "1")]` with the new key `beta`. -/
theorem edge_assign_object_property_semantics_witness :
    (([("alpha", "1")].map Prod.fst).Nodup
      ∧ (("beta" :: [("alpha", "1")].map Prod.fst).all
          fun s => !isArrayIndex s) = true)
    ∧ (((insertAssign [("alpha", "1")] "beta" "2").map Prod.fst).Nodup
       ∧ (insertAssign [("alpha", "1")] "beta" "2").map Prod.fst =
           (if "beta" ∈ [("alpha", "1")].map Prod.fst
            then [("alpha", "1")].map Prod.fst
            else [("alpha", "1")].map Prod.fst ++ ["beta"])
       ∧ (insertAssign [("alpha", "1")] "beta" "2").lookup "beta" = some "2"
       ∧ objectEntries (insertAssign [("alpha", "1")] "beta" "2") =
           insertAssign [("alpha", "1")] "beta" "2") :=
  ⟨⟨by decide, by decide⟩,
    edge_assign_object_property_semantics [("alpha", "1")] "beta" "2"
      (by decide) (by decide)⟩
